import Mathlib

/-!
Verification development for the o1js authenticated call forest and
related modules.

The call-forest core (forest builder, forest hasher, memoized digest
wrapper, dual-path digest computation) is modelled from the spec,
sections 4.2-4.4, since the implementation files
(`call-forest.ts`, `sign-zkapp-command.ts`) are not in the provided
sources; only their unit test `call-forest.unit-test.ts` is.
`foreign-curve.ts` and the voting contract are translated from source.
-/

/-- Modelled from the spec: the external hash interface of section 6.
`H` is the primitive two-argument hash, `E` the fixed empty-forest digest
constant, and `updDigest` the externally supplied digest of an account
update (the update itself is abstracted as a `Nat` payload). -/
structure HashFn where
  H : Nat → Nat → Nat
  E : Nat
  updDigest : Nat → Nat

/-- Modelled from the spec: a call-forest node, an account update (abstracted
as its opaque payload) together with the forest of its children; a call
forest is an ordered list of such nodes. -/
inductive CallTree where
  | node (update : Nat) (children : List CallTree)

/-- Payload of a call-forest node. -/
def CallTree.update : CallTree → Nat
  | .node u _ => u

/-- Children forest of a call-forest node. -/
def CallTree.children : CallTree → List CallTree
  | .node _ cs => cs

/-- Modelled from the spec: the reference-path forest hasher of section 4.3.
The digest of the empty forest is `E`; the digest of a nonempty forest is
`H` of the head node's digest and the tail forest's digest, where a node's
digest combines its update digest with the digest of its children forest. -/
def forestDigest (hf : HashFn) : List CallTree → Nat
  | [] => hf.E
  | .node u cs :: ts => hf.H (hf.H (hf.updDigest u) (forestDigest hf cs)) (forestDigest hf ts)

/-- Modelled from the spec: the digest of a single call-forest node,
`H(updateDigest(update), forestDigest(children))`. -/
def nodeDigest (hf : HashFn) : CallTree → Nat
  | .node u cs => hf.H (hf.updDigest u) (forestDigest hf cs)

/-- Modelled from the spec: in the provable path, digests are in-circuit
variables rather than literal values; hash applications build circuit
terms instead of computing numbers. A digest expression is either the
empty-forest constant, an update-digest input, or a hash gate. -/
inductive DigestExpr where
  | emptyE : DigestExpr
  | updE (u : Nat) : DigestExpr
  | hashE (a b : DigestExpr) : DigestExpr

/-- Evaluation of a provable-path digest expression by the prover, using
the concrete hash interface. -/
def DigestExpr.eval (hf : HashFn) : DigestExpr → Nat
  | .emptyE => hf.E
  | .updE u => hf.updDigest u
  | .hashE a b => hf.H (DigestExpr.eval hf a) (DigestExpr.eval hf b)

/-- Modelled from the spec: the provable-path forest hasher, the same
recursive algorithm as `forestDigest` but over in-circuit digest
variables (section 4.3, equivalence requirement). -/
def provableForestDigest : List CallTree → DigestExpr
  | [] => .emptyE
  | .node u cs :: ts =>
      .hashE (.hashE (.updE u) (provableForestDigest cs)) (provableForestDigest ts)

/-- Modelled from the spec: the inverse of the forest builder, a pre-order
traversal emitting `(update, depth)` pairs (section 4.2). -/
def flattenForest (d : Nat) : List CallTree → List (Nat × Nat)
  | [] => []
  | .node u cs :: ts => (u, d) :: (flattenForest (d + 1) cs ++ flattenForest d ts)

/-- Validity of the depth chain of a flat sequence after an element of
depth `prev`: no depth may increase by more than 1 between consecutive
elements. -/
def chainOk : Nat → List (Nat × Nat) → Bool
  | _, [] => true
  | prev, (_, d) :: rest => decide (d ≤ prev + 1) && chainOk d rest

/-- Validity of a flat depth-tagged sequence per section 4.2: the first
element has depth 0 and no depth increases by more than 1 between
consecutive elements. The empty sequence is valid. -/
def validSeq : List (Nat × Nat) → Bool
  | [] => true
  | (_, d0) :: rest => decide (d0 = 0) && chainOk d0 rest

/-- Depth of the last element of a flat sequence, or `p` if it is empty. -/
def lastD : Nat → List (Nat × Nat) → Nat
  | p, [] => p
  | _, (_, d) :: rest => lastD d rest

/-- Failure modes of the forest builder. `invalidDepthJump` is the error of
section 4.2; `outOfFuel` is an artifact of the explicit termination
measure and is proved unreachable for adequate fuel. -/
inductive BuildError where
  | invalidDepthJump
  | outOfFuel
deriving DecidableEq

/-- Modelled from the spec: the forest builder of section 4.2, phrased as
depth-directed grouping. At depth `d`, an element of larger depth is an
invalid jump (its immediate parent context is missing), an element of
smaller depth closes the current run, and an element of depth `d` starts
a node whose children are built at depth `d + 1` from the remainder. -/
def buildAux : Nat → Nat → List (Nat × Nat) → Except BuildError (List CallTree × List (Nat × Nat))
  | 0, _, _ => .error .outOfFuel
  | _ + 1, _, [] => .ok ([], [])
  | fuel + 1, d, (u, du) :: rest =>
    if d < du then .error .invalidDepthJump
    else if du < d then .ok ([], (u, du) :: rest)
    else
      match buildAux fuel (d + 1) rest with
      | .error e => .error e
      | .ok (children, rest1) =>
        match buildAux fuel d rest1 with
        | .error e => .error e
        | .ok (siblings, rest2) => .ok (CallTree.node u children :: siblings, rest2)

/-- Modelled from the spec: `buildForest` reconstructs a call forest from a
flat depth-tagged sequence, starting at depth 0. -/
def buildForest (s : List (Nat × Nat)) : Except BuildError (List CallTree) :=
  match buildAux (s.length + 1) 0 s with
  | .error e => .error e
  | .ok (f, _) => .ok f

/-- Modelled from the spec: the memoized digest wrapper of sections 3
and 4.4, caching a node's update digest and children-forest digest. -/
structure MemoizedNode where
  update : Nat
  updateDigest : Nat
  childrenDigest : Nat

/-- Modelled from the spec: wrapping a node computes and caches its update
digest and its children-forest digest once. -/
def memoizeNode (hf : HashFn) : CallTree → MemoizedNode
  | .node u cs => ⟨u, hf.updDigest u, forestDigest hf cs⟩

/-- Modelled from the spec: the forest digest computed through the memoized
wrapper, reading the cached digests instead of recomputing them. -/
def memoForestDigest (hf : HashFn) : List MemoizedNode → Nat
  | [] => hf.E
  | n :: ns => hf.H (hf.H n.updateDigest n.childrenDigest) (memoForestDigest hf ns)

/-! Digest lemmas shared by several claims. -/

theorem forestDigest_nil (hf : HashFn) : forestDigest hf [] = hf.E := by
  simp [forestDigest]

theorem forestDigest_cons (hf : HashFn) (t : CallTree) (ts : List CallTree) :
    forestDigest hf (t :: ts) = hf.H (nodeDigest hf t) (forestDigest hf ts) := by
  cases t with
  | node u cs => simp [forestDigest, nodeDigest]

theorem eval_provableForestDigest (hf : HashFn) (f : List CallTree) :
    DigestExpr.eval hf (provableForestDigest f) = forestDigest hf f := by
  induction f using provableForestDigest.induct with
  | case1 => simp [provableForestDigest, forestDigest, DigestExpr.eval]
  | case2 u cs ts ih1 ih2 =>
      simp [provableForestDigest, forestDigest, DigestExpr.eval, ih1, ih2]

/-- C2: the forest digest is the head-fold cons chain: the digest of a
nonempty forest is `H` of the head node's digest and the tail's digest,
a node's digest is `H` of its update digest and its children's forest
digest, and on the concrete three-update scenario (where `u1` has the
single child `u10` at depth 1) the digest of the built forest is the
nested chain `H(nodeDigest u0, H(H(updDigest u1, H(nodeDigest u10, E)),
H(nodeDigest u2, E)))`. -/
theorem forest_digest_cons_chain_and_concrete (hf : HashFn) (t : CallTree) (ts : List CallTree)
    (u0 u1 u10 u2 : Nat) :
    forestDigest hf (t :: ts) = hf.H (nodeDigest hf t) (forestDigest hf ts)
    ∧ nodeDigest hf t = hf.H (hf.updDigest t.update) (forestDigest hf t.children)
    ∧ buildForest [(u0, 0), (u1, 0), (u10, 1), (u2, 0)] =
        .ok [CallTree.node u0 [], CallTree.node u1 [CallTree.node u10 []], CallTree.node u2 []]
    ∧ forestDigest hf [CallTree.node u0 [], CallTree.node u1 [CallTree.node u10 []],
          CallTree.node u2 []]
      = hf.H (nodeDigest hf (CallTree.node u0 []))
          (hf.H (hf.H (hf.updDigest u1) (hf.H (nodeDigest hf (CallTree.node u10 [])) hf.E))
            (hf.H (nodeDigest hf (CallTree.node u2 [])) hf.E)) := by
  refine ⟨forestDigest_cons hf t ts, ?_, ?_, ?_⟩
  · cases t with
    | node u cs => simp [nodeDigest, CallTree.update, CallTree.children]
  · rfl
  · simp [forestDigest, nodeDigest]

/-- C3: prepend law: the digest of `[n] ++ f` is `H` of the digest of the
new top-level node `n` and the digest of the old forest `f`, so
prepending is a single hash application on the old forest digest. -/
theorem forest_digest_prepend_law (hf : HashFn) (n : CallTree) (f : List CallTree) :
    forestDigest hf ([n] ++ f) = hf.H (nodeDigest hf n) (forestDigest hf f) := by
  simpa using forestDigest_cons hf n f

/-- C6: the digest of the empty forest is the fixed constant `E`, and the
provable path uses the same constant: it produces the empty-digest
circuit term, which evaluates to `E`. -/
theorem empty_forest_digest_constant (hf : HashFn) :
    forestDigest hf [] = hf.E ∧ provableForestDigest [] = DigestExpr.emptyE
    ∧ DigestExpr.eval hf (provableForestDigest []) = hf.E := by
  refine ⟨forestDigest_nil hf, by simp [provableForestDigest], by
    simp [provableForestDigest, DigestExpr.eval]⟩

/-- C7: memoization transparency: computing the forest digest through the
memoized wrapper (cached update digest and children digest) gives exactly
the same value as the unmemoized recursive definition, on every forest. -/
theorem memoized_digest_transparent (hf : HashFn) (f : List CallTree) :
    memoForestDigest hf (f.map (memoizeNode hf)) = forestDigest hf f := by
  induction f using provableForestDigest.induct with
  | case1 => simp [memoForestDigest, forestDigest]
  | case2 u cs ts _ ih2 =>
      simp [memoForestDigest, forestDigest, memoizeNode, ih2]

/-! Forest-builder lemmas: structure of successful builds, chain validity,
completeness and soundness of the depth validation. -/

theorem buildAux_ok_spec : ∀ (fuel d : Nat) (l : List (Nat × Nat)) (f : List CallTree)
    (r : List (Nat × Nat)), buildAux fuel d l = .ok (f, r) →
    flattenForest d f ++ r = l ∧ ∀ u dr rest, r = (u, dr) :: rest → dr < d := by
  intro fuel
  induction fuel with
  | zero => intro d l f r h; simp [buildAux] at h
  | succ fuel ih =>
    intro d l f r h
    cases l with
    | nil =>
      simp only [buildAux, Except.ok.injEq, Prod.mk.injEq] at h
      obtain ⟨rfl, rfl⟩ := h
      exact ⟨by simp [flattenForest], by intro u dr rest h; cases h⟩
    | cons p rest =>
      obtain ⟨u, du⟩ := p
      simp only [buildAux] at h
      by_cases h1 : d < du
      · simp [h1] at h
      · rw [if_neg h1] at h
        by_cases h2 : du < d
        · rw [if_pos h2] at h
          simp only [Except.ok.injEq, Prod.mk.injEq] at h
          obtain ⟨rfl, rfl⟩ := h
          refine ⟨by simp [flattenForest], ?_⟩
          intro u' dr rest' hr
          injection hr with hhead _
          injection hhead with _ hdep
          omega
        · rw [if_neg h2] at h
          have hdu : du = d := Nat.le_antisymm (Nat.not_lt.1 h1) (Nat.not_lt.1 h2)
          subst hdu
          cases hc : buildAux fuel (du + 1) rest with
          | error e => simp [hc] at h
          | ok cr =>
            obtain ⟨c, r1⟩ := cr
            simp only [hc] at h
            cases hc2 : buildAux fuel du r1 with
            | error e => simp [hc2] at h
            | ok sr =>
              obtain ⟨sib, r2⟩ := sr
              simp only [hc2, Except.ok.injEq, Prod.mk.injEq] at h
              obtain ⟨rfl, rfl⟩ := h
              obtain ⟨e1, _⟩ := ih (du + 1) rest c r1 hc
              obtain ⟨e2, hd2⟩ := ih du r1 sib r2 hc2
              constructor
              · simp only [flattenForest, List.cons_append, List.append_assoc]
                rw [e2, e1]
              · exact hd2

theorem buildAux_rest_length_le (fuel d : Nat) (l : List (Nat × Nat)) (f : List CallTree)
    (r : List (Nat × Nat)) (h : buildAux fuel d l = .ok (f, r)) : r.length ≤ l.length := by
  have hs := (buildAux_ok_spec fuel d l f r h).1
  calc r.length ≤ (flattenForest d f).length + r.length := Nat.le_add_left _ _
    _ = l.length := by rw [← List.length_append, hs]

theorem chainOk_suffix : ∀ (l : List (Nat × Nat)) (prev : Nat), chainOk prev l = true →
    ∀ (u d : Nat) (r : List (Nat × Nat)), (u, d) :: r <:+ l → chainOk d r = true := by
  intro l
  induction l with
  | nil =>
    intro prev _ u d r hs
    simp at hs
  | cons p rest ih =>
    obtain ⟨u0, d0⟩ := p
    intro prev hchain u d r hs
    simp only [chainOk, Bool.and_eq_true, decide_eq_true_eq] at hchain
    rcases List.suffix_cons_iff.1 hs with heq | hsfx
    · obtain ⟨h1, h2⟩ := List.cons.injEq _ _ _ _ ▸ heq
      obtain ⟨-, rfl⟩ := Prod.mk.injEq _ _ _ _ ▸ h1
      exact h2 ▸ hchain.2
    · exact ih d0 hchain.2 u d r hsfx

theorem buildAux_complete : ∀ (fuel d : Nat) (l : List (Nat × Nat)), l.length < fuel →
    (l = [] ∨ ∃ u d0 rest, l = (u, d0) :: rest ∧ d0 ≤ d ∧ chainOk d0 rest = true) →
    ∃ fr, buildAux fuel d l = .ok fr := by
  intro fuel
  induction fuel with
  | zero => intro d l hl _; exact absurd hl (Nat.not_lt_zero _)
  | succ fuel ih =>
    intro d l hl hv
    cases l with
    | nil => exact ⟨([], []), by simp [buildAux]⟩
    | cons p rest =>
      rcases hv with h | ⟨u, d0, rest', heq, hd0, hchain⟩
      · cases h
      · obtain ⟨h1, h2⟩ := List.cons.injEq _ _ _ _ ▸ heq
        subst h1; subst h2
        by_cases hlt : d0 < d
        · refine ⟨([], (u, d0) :: rest), ?_⟩
          simp [buildAux, if_neg (Nat.not_lt.2 hd0), if_pos hlt, Nat.not_lt.2 hd0]
        · have hd0d : d0 = d := Nat.le_antisymm hd0 (Nat.not_lt.1 hlt)
          subst hd0d
          have hrest : rest = [] ∨ ∃ u1 d1 r2, rest = (u1, d1) :: r2 ∧ d1 ≤ d0 + 1
              ∧ chainOk d1 r2 = true := by
            cases rest with
            | nil => exact Or.inl rfl
            | cons q r2 =>
              obtain ⟨u1, d1⟩ := q
              simp only [chainOk, Bool.and_eq_true, decide_eq_true_eq] at hchain
              exact Or.inr ⟨u1, d1, r2, rfl, hchain.1, hchain.2⟩
          have hlen1 : rest.length < fuel := by
            simp only [List.length_cons] at hl; omega
          obtain ⟨⟨c, r1⟩, hc⟩ := ih (d0 + 1) rest hlen1 hrest
          have hspec := buildAux_ok_spec fuel (d0 + 1) rest c r1 hc
          have hr1sfx : r1 <:+ rest := ⟨flattenForest (d0 + 1) c, hspec.1⟩
          have hr1 : r1 = [] ∨ ∃ u2 d2 r3, r1 = (u2, d2) :: r3 ∧ d2 ≤ d0
              ∧ chainOk d2 r3 = true := by
            cases r1 with
            | nil => exact Or.inl rfl
            | cons q r3 =>
              obtain ⟨u2, d2⟩ := q
              refine Or.inr ⟨u2, d2, r3, rfl, ?_, ?_⟩
              · have := hspec.2 u2 d2 r3 rfl; omega
              · exact chainOk_suffix rest d0 hchain u2 d2 r3 hr1sfx
          have hlen2 : r1.length < fuel := by
            have := buildAux_rest_length_le fuel (d0 + 1) rest c r1 hc
            simp only [List.length_cons] at hl; omega
          obtain ⟨⟨sib, r2⟩, hs2⟩ := ih d0 r1 hlen2 hr1
          refine ⟨(CallTree.node u c :: sib, r2), ?_⟩
          simp [buildAux, hc, hs2]

theorem chainOk_append : ∀ (xs : List (Nat × Nat)) (prev : Nat) (ys : List (Nat × Nat)),
    chainOk prev (xs ++ ys) = (chainOk prev xs && chainOk (lastD prev xs) ys) := by
  intro xs
  induction xs with
  | nil => intro prev ys; simp [chainOk, lastD]
  | cons p rest ih =>
    obtain ⟨u, d⟩ := p
    intro prev ys
    simp [chainOk, lastD, ih, Bool.and_assoc]

theorem lastD_append : ∀ (xs : List (Nat × Nat)) (prev : Nat) (ys : List (Nat × Nat)),
    lastD prev (xs ++ ys) = lastD (lastD prev xs) ys := by
  intro xs
  induction xs with
  | nil => intro prev ys; simp [lastD]
  | cons p rest ih =>
    obtain ⟨u, d⟩ := p
    intro prev ys
    simp [lastD, ih]

theorem flattenForest_chainOk : ∀ (d : Nat) (f : List CallTree) (prev : Nat), d ≤ prev + 1 →
    chainOk prev (flattenForest d f) = true ∧ d ≤ lastD prev (flattenForest d f) + 1 := by
  intro d f
  induction d, f using flattenForest.induct with
  | case1 d => intro prev h; simp [flattenForest, chainOk, lastD, h]
  | case2 d u cs ts ih1 ih2 =>
    intro prev h
    have h1 := ih1 d (Nat.le_refl _)
    have h2 := ih2 (lastD d (flattenForest (d + 1) cs)) (by omega)
    constructor
    · simp [flattenForest, chainOk, chainOk_append, h, h1.1, h2.1]
    · simp only [flattenForest, lastD, lastD_append]
      exact h2.2

theorem buildForest_ok_sound (s : List (Nat × Nat)) (f : List CallTree)
    (h : buildForest s = .ok f) : flattenForest 0 f = s ∧ validSeq s = true := by
  unfold buildForest at h
  cases hb : buildAux (s.length + 1) 0 s with
  | error e => simp [hb] at h
  | ok fr =>
    obtain ⟨f', r⟩ := fr
    simp only [hb, Except.ok.injEq] at h
    subst h
    have hspec := buildAux_ok_spec (s.length + 1) 0 s f' r hb
    have hr : r = [] := by
      cases r with
      | nil => rfl
      | cons q r3 =>
        obtain ⟨u2, d2⟩ := q
        have := hspec.2 u2 d2 r3 rfl
        omega
    subst hr
    have hflat : flattenForest 0 f' = s := by simpa using hspec.1
    refine ⟨hflat, ?_⟩
    have hchain := (flattenForest_chainOk 0 f' 0 (by omega)).1
    rw [← hflat]
    cases f' with
    | nil => simp [flattenForest, validSeq]
    | cons t ts =>
      cases t with
      | node u cs =>
        simp only [flattenForest, chainOk, Bool.and_eq_true] at hchain
        simp [flattenForest, validSeq, hchain.2]

theorem buildAux_no_outOfFuel : ∀ (fuel d : Nat) (l : List (Nat × Nat)), l.length < fuel →
    buildAux fuel d l ≠ .error .outOfFuel := by
  intro fuel
  induction fuel with
  | zero => intro d l hl; exact absurd hl (Nat.not_lt_zero _)
  | succ fuel ih =>
    intro d l hl
    cases l with
    | nil => simp [buildAux]
    | cons p rest =>
      obtain ⟨u, du⟩ := p
      simp only [buildAux]
      by_cases h1 : d < du
      · simp [h1]
      · rw [if_neg h1]
        by_cases h2 : du < d
        · rw [if_pos h2]; simp
        · rw [if_neg h2]
          have hlen : rest.length < fuel := by
            simp only [List.length_cons] at hl; omega
          cases hc : buildAux fuel (d + 1) rest with
          | error e =>
            have hne : e ≠ .outOfFuel := by
              intro he; subst he; exact ih (d + 1) rest hlen hc
            simp [hne]
          | ok cr =>
            obtain ⟨c, r1⟩ := cr
            have hlen2 : r1.length < fuel := by
              have := buildAux_rest_length_le fuel (d + 1) rest c r1 hc
              omega
            cases hc2 : buildAux fuel d r1 with
            | error e =>
              have hne : e ≠ .outOfFuel := by
                intro he; subst he; exact ih d r1 hlen2 hc2
              simp [hc2, hne]
            | ok sr =>
              obtain ⟨sib, r2⟩ := sr
              simp [hc2]

theorem validSeq_build_ok (s : List (Nat × Nat)) (h : validSeq s = true) :
    ∃ f, buildForest s = .ok f := by
  have hcond : s = [] ∨ ∃ u d0 rest, s = (u, d0) :: rest ∧ d0 ≤ 0 ∧ chainOk d0 rest = true := by
    cases s with
    | nil => exact Or.inl rfl
    | cons p rest =>
      obtain ⟨u, d0⟩ := p
      simp only [validSeq, Bool.and_eq_true, decide_eq_true_eq] at h
      exact Or.inr ⟨u, d0, rest, rfl, by omega, h.2⟩
  obtain ⟨⟨f, r⟩, hok⟩ := buildAux_complete (s.length + 1) 0 s (Nat.lt_succ_self _) hcond
  exact ⟨f, by simp [buildForest, hok]⟩

/-- C4: round-trip: on every valid flat depth-tagged sequence `s` the
builder succeeds, and flattening the built forest by pre-order traversal
emits `s` back. -/
theorem build_flatten_round_trip (s : List (Nat × Nat)) (h : validSeq s = true) :
    ∃ f, buildForest s = .ok f ∧ flattenForest 0 f = s := by
  obtain ⟨f, hf⟩ := validSeq_build_ok s h
  exact ⟨f, hf, (buildForest_ok_sound s f hf).1⟩

theorem build_flatten_round_trip_witness :
    validSeq [(4, 0), (5, 1), (6, 2), (7, 0)] = true
    ∧ ∃ f, buildForest [(4, 0), (5, 1), (6, 2), (7, 0)] = .ok f
        ∧ flattenForest 0 f = [(4, 0), (5, 1), (6, 2), (7, 0)] :=
  ⟨by decide, build_flatten_round_trip [(4, 0), (5, 1), (6, 2), (7, 0)] (by decide)⟩

/-- C5: the builder fails with `invalidDepthJump` exactly on the flat
sequences that are not a valid nesting (first element of nonzero depth,
or some depth increasing by more than 1 between consecutive elements);
in particular it fails on `[(u0, 0), (u1, 2)]`, and on valid inputs the
error never occurs. -/
theorem buildForest_invalidDepthJump_iff (s : List (Nat × Nat)) :
    (buildForest s = .error .invalidDepthJump ↔ validSeq s = false)
    ∧ ∀ u0 u1 : Nat, buildForest [(u0, 0), (u1, 2)] = .error .invalidDepthJump := by
  constructor
  · constructor
    · intro h
      cases hval : validSeq s with
      | false => rfl
      | true =>
        obtain ⟨f, hf⟩ := validSeq_build_ok s hval
        rw [hf] at h
        cases h
    · intro hv
      cases hb : buildAux (s.length + 1) 0 s with
      | ok fr =>
        obtain ⟨f, r⟩ := fr
        have hok : buildForest s = .ok f := by simp [buildForest, hb]
        have := (buildForest_ok_sound s f hok).2
        rw [this] at hv
        cases hv
      | error e =>
        have hne := buildAux_no_outOfFuel (s.length + 1) 0 s (Nat.lt_succ_self _)
        cases e with
        | outOfFuel => exact absurd hb hne
        | invalidDepthJump => simp [buildForest, hb]
  · intro u0 u1
    rfl

theorem buildForest_invalidDepthJump_iff_witness :
    buildForest [(8, 0), (9, 2)] = .error .invalidDepthJump :=
  (buildForest_invalidDepthJump_iff [(8, 0), (9, 2)]).2 8 9

/-- C1: dual-path equivalence: for every valid flat depth-tagged sequence
(of size at most 50 and nesting depth at most 10), the provable-path
digest of the built forest evaluates to exactly the reference-path
digest; moreover the two digest computations agree on every forest,
being the same recursive algorithm over the two digest representations. -/
theorem dual_path_digest_equivalence (hf : HashFn) :
    (∀ (s : List (Nat × Nat)) (f : List CallTree),
        validSeq s = true → s.length ≤ 50 → (∀ p ∈ s, p.2 ≤ 10) →
        buildForest s = .ok f →
        DigestExpr.eval hf (provableForestDigest f) = forestDigest hf f)
    ∧ ∀ f : List CallTree,
        DigestExpr.eval hf (provableForestDigest f) = forestDigest hf f :=
  ⟨fun _ f _ _ _ _ => eval_provableForestDigest hf f,
    fun f => eval_provableForestDigest hf f⟩

theorem dual_path_digest_equivalence_witness :
    validSeq [(1, 0), (2, 1), (3, 0)] = true
    ∧ [(1, 0), (2, 1), (3, 0)].length ≤ 50
    ∧ (∀ p ∈ [(1, 0), (2, 1), (3, 0)], p.2 ≤ 10)
    ∧ buildForest [(1, 0), (2, 1), (3, 0)]
        = .ok [CallTree.node 1 [CallTree.node 2 []], CallTree.node 3 []]
    ∧ DigestExpr.eval ⟨fun a b => 31 * a + 7 * b + 3, 5, fun u => u + 1⟩
        (provableForestDigest [CallTree.node 1 [CallTree.node 2 []], CallTree.node 3 []])
      = forestDigest ⟨fun a b => 31 * a + 7 * b + 3, 5, fun u => u + 1⟩
        [CallTree.node 1 [CallTree.node 2 []], CallTree.node 3 []] :=
  ⟨by decide, by decide, by decide, rfl,
    (dual_path_digest_equivalence ⟨fun a b => 31 * a + 7 * b + 3, 5, fun u => u + 1⟩).1
      [(1, 0), (2, 1), (3, 0)] [CallTree.node 1 [CallTree.node 2 []], CallTree.node 3 []]
      (by decide) (by decide) (by decide) rfl⟩

/-! Embedding of `foreign-curve.ts`. A base-field element is either a
constant holding a known value or an in-circuit variable; a curve point
is a pair of base-field elements, and is constant when both coordinates
are. The external collaborators (the constant curve arithmetic from
`elliptic_curve.js`, the in-circuit operations from `Snarky.foreignCurve`,
and `BaseField.from` from `foreign-field.ts`) are abstracted as
parameters. The static `#curveParamsMlVar` field, set only by
`initialize()`, is abstracted as the boolean `initialized`; `_getParams`
throws exactly when it is unset. -/

inductive BaseFieldElt where
  | const (v : Nat)
  | cvar (id : Nat)
deriving DecidableEq

/-- Constancy check of a base-field element (`isConstant` on fields). -/
def BaseFieldElt.isConst : BaseFieldElt → Bool
  | .const _ => true
  | .cvar _ => false

/-- Value of a base-field element; only read on the constant code paths
(mirroring `toBigInt`, which the source only reaches behind an
`isConstant()` guard). -/
def BaseFieldElt.valueOf : BaseFieldElt → Nat
  | .const v => v
  | .cvar _ => 0

/-- A `ForeignCurve` instance: an affine point with base-field coordinates. -/
structure ForeignCurvePoint where
  x : BaseFieldElt
  y : BaseFieldElt
deriving DecidableEq

/-- Embeds `isConstant()`: a point is constant when both coordinates are. -/
def ForeignCurvePoint.isConstant (g : ForeignCurvePoint) : Bool :=
  g.x.isConst && g.y.isConst

/-- Embeds `toBigint()` on the constant path, as a pair of coordinate values. -/
def ForeignCurvePoint.toBigintPair (g : ForeignCurvePoint) : Nat × Nat :=
  (g.x.valueOf, g.y.valueOf)

/-- Embeds `new ForeignCurve(z)` applied to a bigint affine point: both
coordinates become constants. -/
def ofBigintPair (p : Nat × Nat) : ForeignCurvePoint :=
  ⟨.const p.1, .const p.2⟩

/-- External constant-curve arithmetic (`createCurveAffine` from
`elliptic_curve.js`), abstracted: operations on bigint affine points. -/
structure ConstantCurveOps where
  add : Nat × Nat → Nat × Nat → Nat × Nat
  double : Nat × Nat → Nat × Nat
  neg : Nat × Nat → Nat × Nat
  isOnCurve : Nat × Nat → Bool

/-- External in-circuit curve operations (`Snarky.foreignCurve`), abstracted. -/
structure SnarkyCurveOps where
  add : ForeignCurvePoint → ForeignCurvePoint → ForeignCurvePoint
  double : ForeignCurvePoint → ForeignCurvePoint
  neg : ForeignCurvePoint → ForeignCurvePoint
  scale : ForeignCurvePoint → List Bool → ForeignCurvePoint

/-- Failure modes of the curve methods: `_getParams` throwing because
`initialize()` was never called, or `assertOnCurve` failing on a constant
point that is not on the curve. -/
inductive CurveOpError where
  | notInitialized
  | notOnCurve
deriving DecidableEq

/-- One coordinate of a `from` record input: a base-field element, a
bigint, or a number. -/
inductive CurveInputCoord where
  | field (v : BaseFieldElt)
  | bigintIn (n : Int)
  | numberIn (n : Int)

/-- Argument type of `ForeignCurve.from` and of the constructor: either an
existing `ForeignCurve` instance or an `(x, y)` record whose entries are
coordinate inputs. -/
inductive CurveFromInput where
  | inst (g : ForeignCurvePoint)
  | coords (x y : CurveInputCoord)

/-- Embeds `ForeignCurve.from`: an instance is returned unchanged, and a
coordinate record is passed through the constructor, which applies
`BaseField.from` (abstracted as `bfFrom`) to each coordinate. -/
def foreignCurveFrom (bfFrom : CurveInputCoord → BaseFieldElt) :
    CurveFromInput → ForeignCurvePoint
  | .inst g => g
  | .coords x y => ⟨bfFrom x, bfFrom y⟩

/-- Embeds `ForeignCurve.add`: constant operands use the constant curve
arithmetic; otherwise `_getParams` requires initialization before the
in-circuit addition runs. -/
def curveAdd (C : ConstantCurveOps) (S : SnarkyCurveOps) (initialized : Bool)
    (g h : ForeignCurvePoint) : Except CurveOpError ForeignCurvePoint :=
  if g.isConstant && h.isConstant then
    .ok (ofBigintPair (C.add g.toBigintPair h.toBigintPair))
  else if initialized then .ok (S.add g h)
  else .error .notInitialized

/-- Embeds `ForeignCurve.double`. -/
def curveDouble (C : ConstantCurveOps) (S : SnarkyCurveOps) (initialized : Bool)
    (g : ForeignCurvePoint) : Except CurveOpError ForeignCurvePoint :=
  if g.isConstant then .ok (ofBigintPair (C.double g.toBigintPair))
  else if initialized then .ok (S.double g)
  else .error .notInitialized

/-- Embeds `ForeignCurve.negate`. -/
def curveNegate (C : ConstantCurveOps) (S : SnarkyCurveOps) (initialized : Bool)
    (g : ForeignCurvePoint) : Except CurveOpError ForeignCurvePoint :=
  if g.isConstant then .ok (ofBigintPair (C.neg g.toBigintPair))
  else if initialized then .ok (S.neg g)
  else .error .notInitialized

/-- Embeds `ForeignCurve.assertOnCurve`: on a constant point the constant
check either passes or throws; on a non-constant point `_getParams` must
have been initialized, after which the in-circuit assertion is emitted. -/
def curveAssertOnCurve (C : ConstantCurveOps) (initialized : Bool)
    (g : ForeignCurvePoint) : Except CurveOpError Unit :=
  if g.isConstant then
    if C.isOnCurve g.toBigintPair then .ok () else .error .notOnCurve
  else if initialized then .ok ()
  else .error .notInitialized

/-- Embeds `ForeignCurve.scale`: `_getParams` runs first, unconditionally. -/
def curveScale (S : SnarkyCurveOps) (initialized : Bool)
    (g : ForeignCurvePoint) (scalar : List Bool) : Except CurveOpError ForeignCurvePoint :=
  if initialized then .ok (S.scale g scalar) else .error .notInitialized

/-- Embeds `ForeignCurve.checkSubgroup`: `_getParams` runs first,
unconditionally. -/
def curveCheckSubgroup (initialized : Bool) (_g : ForeignCurvePoint) :
    Except CurveOpError Unit :=
  if initialized then .ok () else .error .notInitialized

/-- C8: `ForeignCurve.from` is the identity on curve points: applied to an
existing instance it returns that instance itself, and hence it is
idempotent on every accepted input. -/
theorem foreignCurveFrom_identity_idempotent
    (bfFrom : CurveInputCoord → BaseFieldElt) (g : ForeignCurvePoint)
    (x : CurveFromInput) :
    foreignCurveFrom bfFrom (.inst g) = g
    ∧ foreignCurveFrom bfFrom (.inst (foreignCurveFrom bfFrom x))
        = foreignCurveFrom bfFrom x := by
  exact ⟨rfl, rfl⟩

/-- C9: without `initialize()`, `scale` and `checkSubgroup` always fail
with the initialization error, and `add`, `double`, `negate`,
`assertOnCurve` fail on non-constant points; with constant operands,
`add`, `double` and `negate` succeed without initialization, as does
`assertOnCurve` on a constant point lying on the curve. -/
theorem curve_ops_initialization_guard (C : ConstantCurveOps) (S : SnarkyCurveOps)
    (g h : ForeignCurvePoint) (scalar : List Bool) :
    curveScale S false g scalar = .error .notInitialized
    ∧ curveCheckSubgroup false g = .error .notInitialized
    ∧ (g.isConstant = false ∨ h.isConstant = false →
        curveAdd C S false g h = .error .notInitialized)
    ∧ (g.isConstant = false →
        curveDouble C S false g = .error .notInitialized
        ∧ curveNegate C S false g = .error .notInitialized
        ∧ curveAssertOnCurve C false g = .error .notInitialized)
    ∧ (g.isConstant = true → h.isConstant = true →
        curveAdd C S false g h = .ok (ofBigintPair (C.add g.toBigintPair h.toBigintPair)))
    ∧ (g.isConstant = true →
        curveDouble C S false g = .ok (ofBigintPair (C.double g.toBigintPair))
        ∧ curveNegate C S false g = .ok (ofBigintPair (C.neg g.toBigintPair)))
    ∧ (g.isConstant = true → C.isOnCurve g.toBigintPair = true →
        curveAssertOnCurve C false g = .ok ()) := by
  refine ⟨rfl, rfl, ?_, ?_, ?_, ?_, ?_⟩
  · intro hgh
    rcases hgh with hg | hh
    · simp [curveAdd, hg]
    · simp [curveAdd, hh]
  · intro hg
    exact ⟨by simp [curveDouble, hg], by simp [curveNegate, hg],
      by simp [curveAssertOnCurve, hg]⟩
  · intro hg hh
    simp [curveAdd, hg, hh]
  · intro hg
    exact ⟨by simp [curveDouble, hg], by simp [curveNegate, hg]⟩
  · intro hg hoc
    simp [curveAssertOnCurve, hg, hoc]

theorem curve_ops_initialization_guard_witness :
    curveScale ⟨fun g _ => g, id, id, fun g _ => g⟩ false
        ⟨BaseFieldElt.const 1, BaseFieldElt.const 2⟩ [] = .error .notInitialized
    ∧ curveAdd ⟨fun p _ => p, id, id, fun _ => true⟩ ⟨fun g _ => g, id, id, fun g _ => g⟩
        false ⟨BaseFieldElt.cvar 0, BaseFieldElt.cvar 1⟩
        ⟨BaseFieldElt.const 1, BaseFieldElt.const 2⟩ = .error .notInitialized
    ∧ curveAdd ⟨fun p _ => p, id, id, fun _ => true⟩ ⟨fun g _ => g, id, id, fun g _ => g⟩
        false ⟨BaseFieldElt.const 1, BaseFieldElt.const 2⟩
        ⟨BaseFieldElt.const 3, BaseFieldElt.const 4⟩ = .ok (ofBigintPair (1, 2))
    ∧ curveAssertOnCurve ⟨fun p _ => p, id, id, fun _ => true⟩ false
        ⟨BaseFieldElt.const 1, BaseFieldElt.const 2⟩ = .ok () :=
  ⟨(curve_ops_initialization_guard ⟨fun p _ => p, id, id, fun _ => true⟩
      ⟨fun g _ => g, id, id, fun g _ => g⟩
      ⟨BaseFieldElt.const 1, BaseFieldElt.const 2⟩
      ⟨BaseFieldElt.const 3, BaseFieldElt.const 4⟩ []).1,
   ((curve_ops_initialization_guard ⟨fun p _ => p, id, id, fun _ => true⟩
      ⟨fun g _ => g, id, id, fun g _ => g⟩
      ⟨BaseFieldElt.cvar 0, BaseFieldElt.cvar 1⟩
      ⟨BaseFieldElt.const 1, BaseFieldElt.const 2⟩ []).2.2.1 (Or.inl rfl)),
   ((curve_ops_initialization_guard ⟨fun p _ => p, id, id, fun _ => true⟩
      ⟨fun g _ => g, id, id, fun g _ => g⟩
      ⟨BaseFieldElt.const 1, BaseFieldElt.const 2⟩
      ⟨BaseFieldElt.const 3, BaseFieldElt.const 4⟩ []).2.2.2.2.1 rfl rfl),
   ((curve_ops_initialization_guard ⟨fun p _ => p, id, id, fun _ => true⟩
      ⟨fun g _ => g, id, id, fun g _ => g⟩
      ⟨BaseFieldElt.const 1, BaseFieldElt.const 2⟩
      ⟨BaseFieldElt.const 3, BaseFieldElt.const 4⟩ []).2.2.2.2.2.2 rfl rfl)⟩

/-! Embedding of the `countVotes` reducer step of the voting contract.
The `Member` type and its merkle-witness operations live in external
modules (`member.ts`), so they are abstracted as parameters; the step
function itself is translated from the source, including its literal
`Bool(true)` membership-validity flag (the real witness check is
commented out in the source). -/

/-- External member operations used by the reducer step: adding one vote,
hashing a member, and computing a merkle root from the member's votes
witness and a leaf hash. -/
structure MemberOps (M : Type) where
  addVote : M → M
  getHash : M → Nat
  calculateRoot : M → Nat → Nat

/-- Embeds `Circuit.if` over field values. -/
def circuitIf {α : Type} (b : Bool) (x y : α) : α :=
  if b then x else y

/-- Embeds the reducer step function of `Voting_.countVotes`: the
membership-validity flag is the literal constant `true`, one vote is
added to the dispatched member, and the conditional returns the new
merkle root or the unchanged state. -/
def countVotesStep {M : Type} (ops : MemberOps M) (state : Nat) (action : M) : Nat :=
  let isValid := true
  let action1 := ops.addVote action
  let newRoot := ops.calculateRoot action1 (ops.getHash action1)
  circuitIf isValid newRoot state

/-- C10: the reducer step of `countVotes` applies every dispatched vote
unconditionally: it returns the merkle root obtained after adding one
vote to the dispatched member, and its result does not depend on the
incoming committed-votes state, because the validity flag fed to the
conditional is the constant `true`. -/
theorem countVotesStep_unconditional {M : Type} (ops : MemberOps M)
    (state state' : Nat) (m : M) :
    countVotesStep ops state m
      = ops.calculateRoot (ops.addVote m) (ops.getHash (ops.addVote m))
    ∧ countVotesStep ops state m = countVotesStep ops state' m := by
  exact ⟨rfl, rfl⟩
